import Mathlib

/-!
Verification development for the ResearchPaperSummarizer core pipeline.

Text is embedded as `List Char`. JavaScript `String.prototype.split` with a
non-empty string separator is modelled by `splitOnSep`; the token-bounded
chunker `chunkText` is a direct translation of the function of the same name
in `src/server/services/openai.ts`.
-/

set_option maxRecDepth 20000
set_option linter.unusedVariables false

/-- Conversion helper from Lean string literals to the `List Char` embedding. -/
def cstr (s : String) : List Char := s.data

/-- The paragraph separator `"\n\n"`. -/
def nl2 : List Char := cstr "\n\n"

/-- The sentence separator `". "`. -/
def dotSp : List Char := cstr ". "

/-- Boolean test that `pat` is an initial segment of `l`. -/
def startsWith : List Char → List Char → Bool
  | [], _ => true
  | _ :: _, [] => false
  | a :: as, b :: bs => a = b && startsWith as bs

/-- Worker for `splitOnSep`: splits `l` on the separator `sep`, scanning left to
right without overlap, with `acc` holding the (reversed) characters of the
piece currently being read.  The `fuel` argument makes the recursion
structural; at least one character of `l` is consumed per step, so any
`fuel ≥ l.length` yields the JavaScript `split` behaviour for non-empty
`sep`. -/
def splitAux (sep : List Char) : Nat → List Char → List Char → List (List Char)
  | _, [], acc => [acc.reverse]
  | 0, l, acc => [acc.reverse ++ l]
  | fuel + 1, c :: rest, acc =>
    if startsWith sep (c :: rest) then
      acc.reverse :: splitAux sep fuel (rest.drop (sep.length - 1)) []
    else
      splitAux sep fuel rest (c :: acc)

/-- JavaScript `text.split(sep)` for a non-empty literal separator. -/
def splitOnSep (sep : List Char) (l : List Char) : List (List Char) :=
  splitAux sep l.length l []

/-- Sentence-level greedy loop of `chunkText` (the inner
`for (const sentence of sentences)` loop).  State: emitted chunks and the
current accumulator `cur`. -/
def sentLoop (maxChars : Nat) : List (List Char) → List (List Char) → List Char →
    List (List Char) × List Char
  | [], chunks, cur => (chunks, cur)
  | s :: rest, chunks, cur =>
    if (cur ++ s).length ≤ maxChars then
      sentLoop maxChars rest chunks (cur ++ (if cur = [] then [] else dotSp) ++ s)
    else if cur = [] then
      sentLoop maxChars rest (chunks ++ [s]) []
    else
      sentLoop maxChars rest (chunks ++ [cur]) s

/-- Paragraph-level greedy loop of `chunkText` (the outer
`for (const paragraph of paragraphs)` loop), recursing into `sentLoop`
when an over-budget paragraph is reached with an empty accumulator. -/
def paraLoop (maxChars : Nat) : List (List Char) → List (List Char) → List Char →
    List (List Char) × List Char
  | [], chunks, cur => (chunks, cur)
  | p :: rest, chunks, cur =>
    if (cur ++ p).length ≤ maxChars then
      paraLoop maxChars rest chunks (cur ++ (if cur = [] then [] else nl2) ++ p)
    else if cur = [] then
      let st := sentLoop maxChars (splitOnSep dotSp p) chunks cur
      paraLoop maxChars rest st.1 st.2
    else
      paraLoop maxChars rest (chunks ++ [cur]) p

/-- Translation of `chunkText(text, maxTokens)` from
`src/server/services/openai.ts` (lines 28-73):
`maxChars = maxTokens * 4`; a text within budget is a single chunk; otherwise
paragraphs are greedily accumulated, an over-budget paragraph met with an empty
accumulator is split at sentence granularity, and a final non-empty
accumulator is flushed. -/
def chunkText (text : List Char) (maxTokens : Nat) : List (List Char) :=
  let maxChars := maxTokens * 4
  if text.length ≤ maxChars then [text]
  else
    let st := paraLoop maxChars (splitOnSep nl2 text) [] []
    if st.2 = [] then st.1 else st.1 ++ [st.2]

/-- Joins a list of pieces, placing the separator `sep` before every piece. -/
def sepJoin (sep : List Char) : List (List Char) → List Char
  | [] => []
  | s :: rest => sep ++ s ++ sepJoin sep rest

/-- Joins split pieces back with the separator between consecutive pieces
(inverse of `splitOnSep`). -/
def joinParts (sep : List Char) : List (List Char) → List Char
  | [] => []
  | s :: rest => s ++ sepJoin sep rest

/-- Reconstruction relation: `Recon cs t` holds when concatenating the chunk
sequence `cs` in order, reinserting at each chunk boundary one of the two
separators the chunker splits on (`"\n\n"` or `". "`), yields exactly the
text `t`. -/
inductive Recon : List (List Char) → List Char → Prop
  | single (c : List Char) : Recon [c] c
  | snoc {cs : List (List Char)} {t : List Char} (s u : List Char) :
      Recon cs t → (s = nl2 ∨ s = dotSp) → Recon (cs ++ [u]) (t ++ s ++ u)

/-- Invariant tying the chunker's loop state (emitted chunks, accumulator) to
the portion of the input text consumed so far. -/
def InvR (chunks : List (List Char)) (cur : List Char) (t : List Char) : Prop :=
  (cur = [] ∧ chunks ≠ [] ∧ Recon chunks t) ∨ (cur ≠ [] ∧ Recon (chunks ++ [cur]) t)

/-- Size classification of a chunk: within the budget plus the
never-counted two-character separator, or an exceptional element of `E`
that alone exceeds the budget. -/
def SizeOK (mc : Nat) (E : List Char → Prop) (c : List Char) : Prop :=
  c.length ≤ mc + 2 ∨ (E c ∧ mc < c.length)

/-- A chunk is a whole paragraph of the text, or a whole sentence of one of
its paragraphs. -/
def WholeUnit (text : List Char) (c : List Char) : Prop :=
  c ∈ splitOnSep nl2 text ∨ ∃ p ∈ splitOnSep nl2 text, c ∈ splitOnSep dotSp p

/-- Forced sentence-level overflow: some sentence of some paragraph alone
exceeds the character budget. -/
def HasForcedOverflow (text : List Char) (maxTokens : Nat) : Prop :=
  ∃ p ∈ splitOnSep nl2 text, ∃ s ∈ splitOnSep dotSp p, maxTokens * 4 < s.length

/-- Two short paragraphs whose joined length exceeds the budget by the
separator width. -/
def tTwoParas : List Char := cstr "ab\n\ncd"

/-- A text starting with an empty paragraph. -/
def tLeadingSep : List Char := cstr "\n\nabcd"

/-- A two-paragraph text with a multi-sentence first paragraph. -/
def tTwoSent : List Char := cstr "ab. cd\n\nefghij"

/-- A short paragraph followed by an over-budget multi-sentence paragraph. -/
def tBigPara : List Char := cstr "a\n\nbc. de. fg"

/-- A text consisting only of paragraph separators. -/
def tOnlySeps : List Char := cstr "\n\n\n\n\n\n"

/-- A single over-budget word. -/
def tHello : List Char := cstr "hello"

/-- A single over-budget sentence with no separators at all. -/
def tOneWord : List Char := cstr "abcdef"

-- ### Orchestrator data model (`analyzePaperWithGPT`, src/server/services/openai.ts)

/-- Per-chunk reply section, as found in the parsed JSON of a model reply. -/
structure PaperSection where
  id : List Char
  title : List Char
  originalContent : List Char
  explanation : List Char
deriving DecidableEq

/-- Token usage of one model call (`response.usage`). -/
structure Usage where
  prompt_tokens : Nat
  completion_tokens : Nat

/-- Parsed JSON reply of one chunk call (`chunkResult`); every field may be
absent, in which case the orchestrator falls back to a default. -/
structure ChunkReply where
  generatedTitle : Option (List Char)
  overview : Option (List Char)
  complexity : Option (List Char)
  readingTime : Option (List Char)
  keyConcepts : Option (List (List Char))
  sections : Option (List PaperSection)

/-- One model-collaborator response: the parsed reply plus optional usage. -/
structure ChatResponse where
  content : ChunkReply
  usage : Option Usage

/-- Accumulation state threaded through the chunk loop of
`analyzePaperWithGPT`. -/
structure AccState where
  overview : List Char
  complexity : List Char
  readingTime : List Char
  allSections : List PaperSection
  keyConcepts : List (List Char)
  totalTokensUsed : Nat
  totalCost : ℚ

/-- The merged result record (`PaperAnalysisResult & {generatedTitle}`,
without the wall-clock `analysisTime` field). -/
structure AnalysisOutput where
  overview : List Char
  sections : List PaperSection
  keyConcepts : List (List Char)
  complexity : List Char
  readingTime : List Char
  totalTokens : Nat
  estimatedCost : ℚ
  generatedTitle : List Char

/-- JavaScript `x || fallback` on an optional string field: the fallback is
used when the field is absent or the empty string. -/
def jsOrStr (o : Option (List Char)) (fb : List Char) : List Char :=
  match o with
  | some s => if s = [] then fb else s
  | none => fb

/-- JavaScript `response.usage?.prompt_tokens || 0`. -/
def inTok (r : ChatResponse) : Nat := (r.usage.map Usage.prompt_tokens).getD 0

/-- JavaScript `response.usage?.completion_tokens || 0`. -/
def outTok (r : ChatResponse) : Nat := (r.usage.map Usage.completion_tokens).getD 0

/-- Cost of one model call:
`(inputTokens / 1_000_000) * 2.00 + (outputTokens / 1_000_000) * 8.00`,
embedded exactly over the rationals. -/
def costOf (inputTokens outputTokens : Nat) : ℚ :=
  (inputTokens : ℚ) / 1000000 * 2 + (outputTokens : ℚ) / 1000000 * 8

/-- Initial accumulation state of `analyzePaperWithGPT` (lines 85-91). -/
def initAcc : AccState :=
  { overview := []
    complexity := cstr "Advanced"
    readingTime := cstr "15 min"
    allSections := []
    keyConcepts := []
    totalTokensUsed := 0
    totalCost := 0 }

/-- One iteration of the chunk loop body (lines 151-175): document-level
fields are taken (with fallbacks) from chunk 0 only; sections and key
concepts are appended; token and cost totals are increased. -/
def stepAcc (i : Nat) (r : ChatResponse) (st : AccState) : AccState :=
  let st1 := if i = 0 then
    { st with
      overview := jsOrStr r.content.overview
        (cstr "Comprehensive analysis of transformer architecture and attention mechanisms.")
      complexity := jsOrStr r.content.complexity (cstr "Advanced")
      readingTime := jsOrStr r.content.readingTime (cstr "20 min") }
  else st
  { st1 with
    allSections := st1.allSections ++ (r.content.sections.getD [])
    keyConcepts := st1.keyConcepts ++ (r.content.keyConcepts.getD [])
    totalTokensUsed := st1.totalTokensUsed + (inTok r + outTok r)
    totalCost := st1.totalCost + costOf (inTok r) (outTok r) }

/-- The sequential chunk loop: the model collaborator `call` receives the
chunk index and the chunk; a failing call aborts immediately with its error,
discarding the accumulation. -/
def analyzeLoop (call : Nat → List Char → Except (List Char) ChatResponse) :
    List (List Char) → Nat → AccState → Except (List Char) AccState
  | [], _, st => Except.ok st
  | c :: rest, i, st =>
    match call i c with
    | Except.error e => Except.error e
    | Except.ok r => analyzeLoop call rest (i + 1) (stepAcc i r st)

/-- First-seen-order deduplication, the behaviour of
`[...new Set(keyConcepts)]`. -/
def dedup (l : List (List Char)) : List (List Char) :=
  l.foldl (fun acc x => if x ∈ acc then acc else acc ++ [x]) []

/-- JavaScript `String.prototype.trim`. -/
def trimChars (l : List Char) : List Char :=
  ((l.dropWhile Char.isWhitespace).reverse.dropWhile Char.isWhitespace).reverse

/-- JavaScript `Number(x.toFixed(4))` over the exact rationals: rounding to
the nearest multiple of `1/10000`. -/
def roundTo4 (q : ℚ) : ℚ := (round (q * 10000) : ℤ) / 10000

/-- The error wrapper of the surrounding `try`/`catch`:
`Failed to analyze paper: ${error.message}`. -/
def failWrap (e : List Char) : List Char := cstr "Failed to analyze paper: " ++ e

/-- The title fallback `originalTitle || "Research Paper Analysis"`
(line 184). -/
def baseOf (originalTitle : List Char) : List Char :=
  if originalTitle = [] then cstr "Research Paper Analysis" else originalTitle

/-- Acceptance rule for the extra title-generation call (lines 202-206): the
trimmed reply replaces the base title only when it is non-empty and its
length is strictly between 10 and 150. -/
def acceptTitle (tOpt : Option (List Char)) (base : List Char) : List Char :=
  match tOpt with
  | some t =>
    if trimChars t ≠ [] ∧ 10 < (trimChars t).length ∧ (trimChars t).length < 150 then
      trimChars t
    else base
  | none => base

/-- Assembly of the final result record (lines 209-219). -/
def finishOut (st : AccState) (gt : List Char) : AnalysisOutput :=
  { overview := st.overview
    sections := st.allSections
    keyConcepts := (dedup st.keyConcepts).take 12
    complexity := st.complexity
    readingTime := st.readingTime
    totalTokens := st.totalTokensUsed
    estimatedCost := roundTo4 st.totalCost
    generatedTitle := gt }

/-- Translation of `analyzePaperWithGPT` (src/server/services/openai.ts,
lines 75-225), with the two kinds of OpenAI calls abstracted as oracles:
`call` answers the per-chunk analysis requests and `titleCall` the single
extra title-generation request (issued only when the accumulated sections
are non-empty); any failing call makes the whole analysis fail with the
wrapped error. -/
def analyzePaperWithGPT (paperContent originalTitle : List Char)
    (authors : Option (List Char))
    (call : Nat → List Char → Except (List Char) ChatResponse)
    (titleCall : List Char → List (List Char) → Except (List Char) (Option (List Char))) :
    Except (List Char) AnalysisOutput :=
  let chunks := chunkText paperContent 15000
  match analyzeLoop call chunks 0 initAcc with
  | Except.error e => Except.error (failWrap e)
  | Except.ok st =>
    let base := baseOf originalTitle
    if st.allSections = [] then Except.ok (finishOut st base)
    else
      match titleCall st.overview ((dedup st.keyConcepts).take 5) with
      | Except.error e => Except.error (failWrap e)
      | Except.ok tOpt => Except.ok (finishOut st (acceptTitle tOpt base))

/-- A model collaborator that never fails, given by its response function. -/
def okCall (resp : Nat → List Char → ChatResponse) :
    Nat → List Char → Except (List Char) ChatResponse :=
  fun i c => Except.ok (resp i c)

/-- Pure replay of the chunk loop for a never-failing collaborator. -/
def runAll (resp : Nat → List Char → ChatResponse) :
    List (List Char) → Nat → AccState → AccState
  | [], _, st => st
  | c :: rest, i, st => runAll resp rest (i + 1) (stepAcc i (resp i c) st)

/-- Concatenation of the per-chunk `keyConcepts` lists, in chunk order. -/
def collectKC (resp : Nat → List Char → ChatResponse) :
    List (List Char) → Nat → List (List Char)
  | [], _ => []
  | c :: rest, i => ((resp i c).content.keyConcepts.getD []) ++ collectKC resp rest (i + 1)

/-- Concatenation of the per-chunk `sections` lists, in chunk order. -/
def collectSecs (resp : Nat → List Char → ChatResponse) :
    List (List Char) → Nat → List PaperSection
  | [], _ => []
  | c :: rest, i => ((resp i c).content.sections.getD []) ++ collectSecs resp rest (i + 1)

/-- Sum of the per-chunk-call costs, in chunk order. -/
def costSum (resp : Nat → List Char → ChatResponse) :
    List (List Char) → Nat → ℚ
  | [], _ => 0
  | c :: rest, i => costOf (inTok (resp i c)) (outTok (resp i c)) + costSum resp rest (i + 1)

-- ### Concrete inputs for the orchestrator claims

/-- A small paper body (a single chunk under the 15000-token budget). -/
def contentW : List Char := cstr "paper body"

/-- A sample overview string. -/
def ovW : List Char := cstr "An overview"

/-- A sample key concept. -/
def kA : List Char := cstr "alpha"

/-- Another sample key concept. -/
def kB : List Char := cstr "beta"

/-- A sample reply section. -/
def secW : PaperSection :=
  { id := cstr "s1", title := cstr "Intro", originalContent := cstr "orig",
    explanation := cstr "expl" }

/-- A generated-title reply of acceptable length (25 characters). -/
def titleW : List Char := cstr "An Acceptable Paper Title"

/-- A response function with duplicate key concepts, one section and
known usage. -/
def respW : Nat → List Char → ChatResponse := fun _ _ =>
  { content :=
      { generatedTitle := none, overview := some ovW, complexity := none,
        readingTime := none, keyConcepts := some [kA, kA, kB],
        sections := some [secW] },
    usage := some { prompt_tokens := 100, completion_tokens := 200 } }

/-- A title-generation oracle answering `titleW`. -/
def tcW : List Char → List (List Char) → Except (List Char) (Option (List Char)) :=
  fun _ _ => Except.ok (some titleW)

/-- A chunk-0 generated title of clearly usable length (32 characters). -/
def gUsable : List Char := cstr "A Chunk Zero Title Produced Here"

/-- A response function whose chunk-0 reply carries a usable
`generatedTitle` and a section. -/
def respT : Nat → List Char → ChatResponse := fun _ _ =>
  { content :=
      { generatedTitle := some gUsable, overview := some ovW, complexity := none,
        readingTime := none, keyConcepts := some [kA], sections := some [secW] },
    usage := none }

/-- A response function returning no sections at all. -/
def respN : Nat → List Char → ChatResponse := fun _ _ =>
  { content :=
      { generatedTitle := some gUsable, overview := some ovW, complexity := none,
        readingTime := none, keyConcepts := some [kA], sections := none },
    usage := none }

/-- First alternative title-generation oracle. -/
def tcA : List Char → List (List Char) → Except (List Char) (Option (List Char)) :=
  fun _ _ => Except.ok (some (cstr "Replacement Title Number One"))

/-- Second alternative title-generation oracle, answering differently. -/
def tcB : List Char → List (List Char) → Except (List Char) (Option (List Char)) :=
  fun _ _ => Except.ok (some (cstr "A Different Replacement Title"))

/-- A transport-error message. -/
def boomMsg : List Char := cstr "boom"

/-- A collaborator whose every call fails with `boomMsg`. -/
def failCall : Nat → List Char → Except (List Char) ChatResponse :=
  fun _ _ => Except.error boomMsg

-- ### Layout-based document extractor (parsePDF title/author inference,
-- src/unnamed/part_005 and src/unnamed/part_006)

/-- A positioned text fragment of a PDF page (`{str, y}` of pdf.js-extract);
larger `y` means higher on the page. -/
structure Fragment where
  str : List Char
  y : Int

/-- ASCII digit test. -/
def isAsciiDigit (c : Char) : Bool := decide ('0' ≤ c) && decide (c ≤ '9')

/-- ASCII uppercase-letter test. -/
def isAsciiUpper (c : Char) : Bool := decide ('A' ≤ c) && decide (c ≤ 'Z')

/-- ASCII letter test (`[a-zA-Z]`). -/
def isAsciiAlpha (c : Char) : Bool :=
  (decide ('a' ≤ c) && decide (c ≤ 'z')) || (decide ('A' ≤ c) && decide (c ≤ 'Z'))

/-- Test that the first `n` characters exist and are ASCII digits. -/
def digitsAt : Nat → List Char → Bool
  | 0, _ => true
  | _ + 1, [] => false
  | n + 1, c :: rest => isAsciiDigit c && digitsAt n rest

/-- JavaScript `String.prototype.toLowerCase` (ASCII content). -/
def lowerStr (l : List Char) : List Char := l.map Char.toLower

/-- JavaScript `hay.includes(needle)`. -/
def hasSub (needle : List Char) : List Char → Bool
  | [] => startsWith needle []
  | c :: rest => startsWith needle (c :: rest) || hasSub needle rest

/-- The anchored test `/^\d{4}\.\d{4,5}/.test(text)`: four digits, a dot and
at least four more digits at the start. -/
def arxivIdStart (l : List Char) : Bool :=
  digitsAt 4 l &&
    match l.drop 4 with
    | '.' :: rest => digitsAt 4 rest
    | _ => false

/-- The test `/^[A-Z]{2,}$/`. -/
def allUpper2 (l : List Char) : Bool := decide (2 ≤ l.length) && l.all isAsciiUpper

/-- The test `/^\d+$/`. -/
def allDigits1 (l : List Char) : Bool := !l.isEmpty && l.all isAsciiDigit

/-- Negation of `/^[^a-zA-Z]*$/`: the text contains at least one letter. -/
def hasLetter (l : List Char) : Bool := l.any isAsciiAlpha

/-- JavaScript `text.split(' ').length`. -/
def wordCount (l : List Char) : Nat := (splitOnSep (cstr " ") l).length

/-- Insertion of a fragment into a `y`-descending sorted list, keeping the
inserted (earlier) fragment before fragments of equal height — the stable
behaviour of `sort((a, b) => b.y - a.y)`. -/
def insertDesc (f : Fragment) : List Fragment → List Fragment
  | [] => [f]
  | g :: rest => if g.y ≤ f.y then f :: g :: rest else g :: insertDesc f rest

/-- Stable sort of fragments by descending vertical position. -/
def sortDesc (l : List Fragment) : List Fragment := l.foldr insertDesc []

/-- The `isLikelyTitle` test of src/unnamed/part_005 (lines 64-77). -/
def isLikelyTitle5 (text : List Char) : Bool :=
  decide (10 ≤ text.length) && decide (text.length ≤ 100) &&
  !(hasSub (cstr "arxiv") (lowerStr text)) &&
  !(hasSub (cstr "preprint") (lowerStr text)) &&
  !(hasSub (cstr "abstract") (lowerStr text)) &&
  !(hasSub (cstr "cs.") (lowerStr text)) &&
  !(arxivIdStart text) &&
  !(allUpper2 text) &&
  !(allDigits1 text) &&
  hasLetter text &&
  decide (2 ≤ wordCount text) && decide (wordCount text ≤ 15)

/-- The `isLikelyAuthor` test of src/unnamed/part_005 (lines 86-95). -/
def isLikelyAuthor5 (text : List Char) : Bool :=
  decide (3 < text.length) && decide (text.length < 100) &&
  !(hasSub (cstr "abstract") (lowerStr text)) &&
  !(hasSub (cstr "arxiv") (lowerStr text)) &&
  (text.contains ' ' || text.contains ',') &&
  !(text.contains '©') &&
  !(hasSub (cstr "University") text) &&
  decide (wordCount text ≤ 8)

/-- The `topElements` pipeline of src/unnamed/part_005 (lines 58-61): filter
to fragments whose trimmed text is longer than 3, sort top-to-bottom, keep
the first 20. -/
def topElements5 (firstPage : List Fragment) : List Fragment :=
  (sortDesc (firstPage.filter (fun f =>
    decide (f.str ≠ []) && decide (trimChars f.str ≠ []) &&
      decide (3 < (trimChars f.str).length)))).take 20

/-- Title inference of src/unnamed/part_005: the first top element passing
`isLikelyTitle`, else the fixed placeholder. -/
def title5 (firstPage : List Fragment) : List Char :=
  match (topElements5 firstPage).find? (fun f => isLikelyTitle5 (trimChars f.str)) with
  | some f => trimChars f.str
  | none => cstr "Research Paper"

/-- Author inference of src/unnamed/part_005: scan indices
`1 ≤ i < min(length, 10)` of the top elements for the first
`isLikelyAuthor` match, else the fixed placeholder. -/
def authors5 (firstPage : List Fragment) : List Char :=
  match (((topElements5 firstPage).take 10).drop 1).find?
      (fun f => isLikelyAuthor5 (trimChars f.str)) with
  | some f => trimChars f.str
  | none => cstr "Unknown Authors"

/-- The sorted, non-empty fragments of src/unnamed/part_006 (lines 58-60). -/
def sorted6 (firstPage : List Fragment) : List Fragment :=
  sortDesc (firstPage.filter (fun f =>
    decide (f.str ≠ []) && decide (trimChars f.str ≠ [])))

/-- The title-candidate test of src/unnamed/part_006 (lines 65-74). -/
def isTitleCand6 (text : List Char) : Bool :=
  decide (5 < text.length) && decide (text.length < 150) &&
  !(hasSub (cstr "arxiv") (lowerStr text)) &&
  !(hasSub (cstr "preprint") (lowerStr text)) &&
  !(hasSub (cstr "abstract") (lowerStr text)) &&
  !(allDigits1 text) &&
  !(allUpper2 text) &&
  decide (1 < wordCount text)

/-- Title inference of src/unnamed/part_006: the first candidate among the
top 10 sorted fragments, else the fixed placeholder. -/
def title6 (firstPage : List Fragment) : List Char :=
  match ((sorted6 firstPage).take 10).filter (fun f => isTitleCand6 (trimChars f.str)) with
  | f :: _ => trimChars f.str
  | [] => cstr "Research Paper"

/-- The author-candidate test of src/unnamed/part_006 (lines 85-92). -/
def isAuthorCand6 (text : List Char) : Bool :=
  decide (3 < text.length) && decide (text.length < 200) &&
  !(hasSub (cstr "abstract") (lowerStr text)) &&
  !(hasSub (cstr "university") (lowerStr text)) &&
  (text.contains ' ' || text.contains ',')

/-- Author inference of src/unnamed/part_006: the first candidate in
`slice(1, 15)` of the sorted fragments, else the fixed placeholder. -/
def authors6 (firstPage : List Fragment) : List Char :=
  match (((sorted6 firstPage).drop 1).take 14).filter
      (fun f => isAuthorCand6 (trimChars f.str)) with
  | f :: _ => trimChars f.str
  | [] => cstr "Unknown Authors"

/-- Topmost fragment of the sample scenario's first page. -/
def fragTitle : Fragment := { str := cstr "Attention Is All You Need", y := 700 }

/-- Second fragment of the sample scenario's first page. -/
def fragAuthors : Fragment := { str := cstr "Ashish Vaswani, Noam Shazeer", y := 680 }

/-- A lower fragment of the sample scenario's first page. -/
def fragAbstract : Fragment := { str := cstr "Abstract", y := 600 }

/-- The sample scenario's first page. -/
def attnPage : List Fragment := [fragTitle, fragAuthors, fragAbstract]

-- ### arXiv URL validation (src/server/services/arxivFetcher.ts)

/-- Character class `[a-z-]` of the old-style arXiv category patterns. -/
def isCatCh (c : Char) : Bool := (decide ('a' ≤ c) && decide (c ≤ 'z')) || c = '-'

/-- The literal `arxiv.org/abs/` of the first and third patterns. -/
def litAbs : List Char := cstr "arxiv.org/abs/"

/-- The literal `arxiv.org/pdf/` of the second and fourth patterns. -/
def litPdf : List Char := cstr "arxiv.org/pdf/"

/-- Capture of `([0-9]{4}\.[0-9]{4,5})` at the start of `l`: four digits, a
dot and four digits, greedily extended by a fifth digit. -/
def newIdCap (l : List Char) : Option (List Char) :=
  if digitsAt 4 l then
    match l.drop 4 with
    | '.' :: rest =>
      if digitsAt 4 rest then
        some (l.take 4 ++ '.' :: (if digitsAt 5 rest then rest.take 5 else rest.take 4))
      else none
    | _ => none
  else none

/-- Continuation of the old-style capture after at least one `[a-z-]`
character (held reversed in `acc`): more class characters, then `/` and
exactly seven digits. -/
def oldIdCapAfter (acc : List Char) : List Char → Option (List Char)
  | [] => none
  | c :: rest =>
    if c = '/' then
      if digitsAt 7 rest then some (acc.reverse ++ '/' :: rest.take 7) else none
    else if isCatCh c then oldIdCapAfter (c :: acc) rest
    else none

/-- Capture of `([a-z-]+\/[0-9]{7})` at the start of `l`. -/
def oldIdCap : List Char → Option (List Char)
  | [] => none
  | c :: rest => if isCatCh c then oldIdCapAfter [c] rest else none

/-- Attempt one pattern at a fixed position: the literal, then the id
capture. -/
def tryAt (cap : List Char → Option (List Char)) (lit : List Char)
    (l : List Char) : Option (List Char) :=
  if startsWith lit l then cap (l.drop lit.length) else none

/-- Leftmost match of one unanchored pattern, as `url.match(pattern)`. -/
def findCap (cap : List Char → Option (List Char)) (lit : List Char) :
    List Char → Option (List Char)
  | [] => tryAt cap lit []
  | c :: rest =>
    match tryAt cap lit (c :: rest) with
    | some r => some r
    | none => findCap cap lit rest

/-- Translation of `extractArxivId` (src/server/services/arxivFetcher.ts,
lines 56-73): the four patterns are tried in order and the first captured id
is returned. -/
def extractArxivId (url : List Char) : Option (List Char) :=
  match findCap newIdCap litAbs url with
  | some r => some r
  | none =>
    match findCap newIdCap litPdf url with
    | some r => some r
    | none =>
      match findCap oldIdCap litAbs url with
      | some r => some r
      | none => findCap oldIdCap litPdf url

/-- Translation of `validateArxivUrl` (lines 139-141). -/
def validateArxivUrl (url : List Char) : Bool := (extractArxivId url).isSome

/-- Declarative reading of the new-style id pattern at the start of a
string: four digits, a dot, four digits, then anything. -/
def NewIdAt (l : List Char) : Prop :=
  ∃ a b rest, l = a ++ '.' :: (b ++ rest) ∧ a.length = 4 ∧ b.length = 4 ∧
    (∀ c ∈ a, isAsciiDigit c = true) ∧ (∀ c ∈ b, isAsciiDigit c = true)

/-- Declarative reading of the old-style id pattern at the start of a
string: a non-empty `[a-z-]` run, a slash, seven digits, then anything. -/
def OldIdAt (l : List Char) : Prop :=
  ∃ cat ds rest, l = cat ++ '/' :: (ds ++ rest) ∧ cat ≠ [] ∧
    (∀ c ∈ cat, isCatCh c = true) ∧ ds.length = 7 ∧
    (∀ c ∈ ds, isAsciiDigit c = true)

/-- Declarative reading of claim C10: the string contains, anywhere within
it, `arxiv.org/abs/` or `arxiv.org/pdf/` followed by a new-style or
old-style identifier. -/
def ContainsArxivRef (url : List Char) : Prop :=
  ∃ u v, url = u ++ v ∧
    ((∃ rest, v = litAbs ++ rest ∧ (NewIdAt rest ∨ OldIdAt rest)) ∨
     (∃ rest, v = litPdf ++ rest ∧ (NewIdAt rest ∨ OldIdAt rest)))

-- ### Lemmas about `splitOnSep`

theorem startsWith_decomp {sep l : List Char} (h : startsWith sep l = true) :
    l = sep ++ l.drop sep.length := by
  induction sep generalizing l with
  | nil => simp
  | cons a as ih =>
    cases l with
    | nil => simp [startsWith] at h
    | cons b bs =>
      simp only [startsWith, Bool.and_eq_true, decide_eq_true_eq] at h
      obtain ⟨rfl, h2⟩ := h
      simpa using ih h2

theorem splitAux_ne_nil (sep : List Char) :
    ∀ (fuel : Nat) (l acc : List Char), splitAux sep fuel l acc ≠ [] := by
  intro fuel
  induction fuel with
  | zero => intro l acc; cases l <;> simp [splitAux]
  | succ n ih =>
    intro l acc
    cases l with
    | nil => simp [splitAux]
    | cons c rest =>
      rw [splitAux]
      split
      · simp
      · exact ih rest (c :: acc)

theorem splitOnSep_ne_nil (sep l : List Char) : splitOnSep sep l ≠ [] :=
  splitAux_ne_nil sep l.length l []

theorem splitAux_join (sep : List Char) (hsep : sep ≠ []) :
    ∀ (fuel : Nat) (l acc : List Char), l.length ≤ fuel →
      sepJoin sep (splitAux sep fuel l acc) = sep ++ acc.reverse ++ l := by
  intro fuel
  induction fuel with
  | zero =>
    intro l acc hl
    have : l = [] := List.length_eq_zero.mp (Nat.le_zero.mp hl)
    subst this
    simp [splitAux, sepJoin]
  | succ n ih =>
    intro l acc hl
    cases l with
    | nil => simp [splitAux, sepJoin]
    | cons c rest =>
      rw [splitAux]
      split
      · rename_i hsw
        have hdec := startsWith_decomp hsw
        obtain ⟨a, as, rfl⟩ : ∃ a as, sep = a :: as := by
          cases sep with
          | nil => exact absurd rfl hsep
          | cons a as => exact ⟨a, as, rfl⟩
        have hlen : rest.length ≤ n := by
          simp only [List.length_cons] at hl; omega
        have hdrop : (rest.drop ((a :: as).length - 1)).length ≤ n := by
          rw [List.length_drop]; omega
        rw [sepJoin, ih _ _ hdrop]
        simp only [List.reverse_nil, List.append_nil, List.nil_append]
        have : (c :: rest) = (a :: as) ++ (rest.drop ((a :: as).length - 1)) := by
          simpa using hdec
        rw [List.append_assoc, List.append_assoc, ← this]
      · have hlen : rest.length ≤ n := by
          simp only [List.length_cons] at hl; omega
        rw [ih rest (c :: acc) hlen]
        simp

theorem joinParts_splitOnSep (sep : List Char) (hsep : sep ≠ []) (l : List Char) :
    joinParts sep (splitOnSep sep l) = l := by
  have h := splitAux_join sep hsep l.length l [] le_rfl
  obtain ⟨x, xs, hx⟩ : ∃ x xs, splitOnSep sep l = x :: xs := by
    cases hxs : splitOnSep sep l with
    | nil => exact absurd hxs (splitOnSep_ne_nil sep l)
    | cons x xs => exact ⟨x, xs, rfl⟩
  rw [splitOnSep] at hx
  rw [hx] at h
  rw [sepJoin] at h
  simp only [List.reverse_nil, List.append_nil, List.nil_append] at h
  rw [List.append_assoc] at h
  have := List.append_cancel_left h
  rw [splitOnSep, hx, joinParts, this]

-- ### Size invariant of the chunking loops

theorem SizeOK_of_mem {mc : Nat} {E : List Char → Prop} {c : List Char} (h : E c) :
    SizeOK mc E c := by
  rcases le_or_lt c.length (mc + 2) with h1 | h1
  · exact Or.inl h1
  · exact Or.inr ⟨h, by omega⟩

theorem sentLoop_sizes (mc : Nat) (E : List Char → Prop) :
    ∀ (ss : List (List Char)), (∀ s ∈ ss, E s) →
    ∀ (chunks : List (List Char)) (cur : List Char),
      (∀ c ∈ chunks, SizeOK mc E c) → SizeOK mc E cur →
      (∀ c ∈ (sentLoop mc ss chunks cur).1, SizeOK mc E c) ∧
        SizeOK mc E (sentLoop mc ss chunks cur).2 := by
  intro ss
  induction ss with
  | nil => intro _ chunks cur hch hcur; exact ⟨hch, hcur⟩
  | cons s rest ih =>
    intro hss chunks cur hch hcur
    have hsE : E s := hss s (by simp)
    have hrest : ∀ x ∈ rest, E x := fun x hx => hss x (by simp [hx])
    rw [sentLoop]
    split
    · rename_i hfit
      refine ih hrest chunks _ hch (Or.inl ?_)
      have hd : (if cur = [] then ([] : List Char) else dotSp).length ≤ 2 := by
        split <;> simp [dotSp, cstr]
      simp only [List.length_append] at hfit ⊢
      omega
    · split
      · refine ih hrest _ [] ?_ (Or.inl (by simp))
        intro c hc
        rcases List.mem_append.mp hc with h | h
        · exact hch c h
        · simp only [List.mem_singleton] at h
          subst h
          exact SizeOK_of_mem hsE
      · refine ih hrest _ s ?_ (SizeOK_of_mem hsE)
        intro c hc
        rcases List.mem_append.mp hc with h | h
        · exact hch c h
        · simp only [List.mem_singleton] at h
          subst h
          exact hcur

theorem paraLoop_sizes (mc : Nat) (E : List Char → Prop) :
    ∀ (ps : List (List Char)),
      (∀ p ∈ ps, E p ∧ ∀ s ∈ splitOnSep dotSp p, E s) →
    ∀ (chunks : List (List Char)) (cur : List Char),
      (∀ c ∈ chunks, SizeOK mc E c) → SizeOK mc E cur →
      (∀ c ∈ (paraLoop mc ps chunks cur).1, SizeOK mc E c) ∧
        SizeOK mc E (paraLoop mc ps chunks cur).2 := by
  intro ps
  induction ps with
  | nil => intro _ chunks cur hch hcur; exact ⟨hch, hcur⟩
  | cons p rest ih =>
    intro hps chunks cur hch hcur
    have hpE : E p := (hps p (by simp)).1
    have hpS : ∀ s ∈ splitOnSep dotSp p, E s := (hps p (by simp)).2
    have hrest : ∀ x ∈ rest, E x ∧ ∀ s ∈ splitOnSep dotSp x, E s :=
      fun x hx => hps x (by simp [hx])
    rw [paraLoop]
    split
    · rename_i hfit
      refine ih hrest chunks _ hch (Or.inl ?_)
      have hd : (if cur = [] then ([] : List Char) else nl2).length ≤ 2 := by
        split <;> simp [nl2, cstr]
      simp only [List.length_append] at hfit ⊢
      omega
    · split
      · have hs := sentLoop_sizes mc E (splitOnSep dotSp p) hpS chunks cur hch hcur
        exact ih hrest _ _ hs.1 hs.2
      · refine ih hrest _ p ?_ (SizeOK_of_mem hpE)
        intro c hc
        rcases List.mem_append.mp hc with h | h
        · exact hch c h
        · simp only [List.mem_singleton] at h
          subst h
          exact hcur

theorem chunkText_sizes (text : List Char) (maxTokens : Nat) :
    ∀ c ∈ chunkText text maxTokens, SizeOK (maxTokens * 4) (WholeUnit text) c := by
  intro c hc
  rw [chunkText] at hc
  simp only at hc
  split at hc
  · rename_i hle
    simp only [List.mem_singleton] at hc
    subst hc
    exact Or.inl (by omega)
  · have hps : ∀ p ∈ splitOnSep nl2 text,
        WholeUnit text p ∧ ∀ s ∈ splitOnSep dotSp p, WholeUnit text s := by
      intro p hp
      exact ⟨Or.inl hp, fun s hs => Or.inr ⟨p, hp, hs⟩⟩
    have h := paraLoop_sizes (maxTokens * 4) (WholeUnit text) (splitOnSep nl2 text)
      hps [] [] (by simp) (Or.inl (by simp))
    split at hc
    · exact h.1 c hc
    · rcases List.mem_append.mp hc with h1 | h1
      · exact h.1 c h1
      · simp only [List.mem_singleton] at h1
        subst h1
        exact h.2

-- ### Nonemptiness invariants of the chunking loops

theorem sentLoop_chunks_ne (mc : Nat) :
    ∀ (ss chunks : List (List Char)) (cur : List Char),
      (∀ c ∈ chunks, c ≠ []) →
      ∀ c ∈ (sentLoop mc ss chunks cur).1, c ≠ [] := by
  intro ss
  induction ss with
  | nil => intro chunks cur hch; exact hch
  | cons s rest ih =>
    intro chunks cur hch
    rw [sentLoop]
    split
    · exact ih chunks _ hch
    · rename_i hfit
      split
      · rename_i hcur
        refine ih _ [] ?_
        intro c hc
        rcases List.mem_append.mp hc with h | h
        · exact hch c h
        · simp only [List.mem_singleton] at h
          subst h
          intro hnil
          rw [hcur, hnil] at hfit
          simp at hfit
      · rename_i hcur
        refine ih _ s ?_
        intro c hc
        rcases List.mem_append.mp hc with h | h
        · exact hch c h
        · simp only [List.mem_singleton] at h
          subst h
          exact hcur

theorem paraLoop_chunks_ne (mc : Nat) :
    ∀ (ps chunks : List (List Char)) (cur : List Char),
      (∀ c ∈ chunks, c ≠ []) →
      ∀ c ∈ (paraLoop mc ps chunks cur).1, c ≠ [] := by
  intro ps
  induction ps with
  | nil => intro chunks cur hch; exact hch
  | cons p rest ih =>
    intro chunks cur hch
    rw [paraLoop]
    split
    · exact ih chunks _ hch
    · split
      · exact ih _ _ (sentLoop_chunks_ne mc _ chunks cur hch)
      · rename_i hfit hcur
        refine ih _ p ?_
        intro c hc
        rcases List.mem_append.mp hc with h | h
        · exact hch c h
        · simp only [List.mem_singleton] at h
          subst h
          exact hcur

theorem sentLoop_good (mc : Nat) :
    ∀ (ss chunks : List (List Char)) (cur : List Char),
      (chunks ≠ [] ∨ cur ≠ []) →
      (sentLoop mc ss chunks cur).1 ≠ [] ∨ (sentLoop mc ss chunks cur).2 ≠ [] := by
  intro ss
  induction ss with
  | nil => intro chunks cur h; exact h
  | cons s rest ih =>
    intro chunks cur h
    rw [sentLoop]
    split
    · rcases h with h | h
      · exact ih chunks _ (Or.inl h)
      · refine ih chunks _ (Or.inr ?_)
        intro hx
        exact h (List.append_eq_nil.mp (List.append_eq_nil.mp hx).1).1
    · split
      · exact ih _ [] (Or.inl (by simp))
      · exact ih _ s (Or.inl (by simp))

theorem sentLoop_trigger (mc : Nat) :
    ∀ (ss : List (List Char)), (∃ s ∈ ss, s ≠ []) →
    ∀ (chunks : List (List Char)) (cur : List Char),
      (sentLoop mc ss chunks cur).1 ≠ [] ∨ (sentLoop mc ss chunks cur).2 ≠ [] := by
  intro ss
  induction ss with
  | nil => rintro ⟨s, hs, _⟩; simp at hs
  | cons s rest ih =>
    rintro ⟨s0, hs0, hs0ne⟩ chunks cur
    rw [sentLoop]
    rcases List.mem_cons.mp hs0 with rfl | hmem
    · split
      · refine sentLoop_good mc rest chunks _ (Or.inr ?_)
        intro hx
        exact hs0ne (List.append_eq_nil.mp hx).2
      · split
        · exact sentLoop_good mc rest _ [] (Or.inl (by simp))
        · exact sentLoop_good mc rest _ s0 (Or.inl (by simp))
    · split
      · exact ih ⟨s0, hmem, hs0ne⟩ chunks _
      · split
        · exact ih ⟨s0, hmem, hs0ne⟩ _ []
        · exact ih ⟨s0, hmem, hs0ne⟩ _ s

theorem paraLoop_good (mc : Nat) :
    ∀ (ps chunks : List (List Char)) (cur : List Char),
      (chunks ≠ [] ∨ cur ≠ []) →
      (paraLoop mc ps chunks cur).1 ≠ [] ∨ (paraLoop mc ps chunks cur).2 ≠ [] := by
  intro ps
  induction ps with
  | nil => intro chunks cur h; exact h
  | cons p rest ih =>
    intro chunks cur h
    rw [paraLoop]
    split
    · rcases h with h | h
      · exact ih chunks _ (Or.inl h)
      · refine ih chunks _ (Or.inr ?_)
        intro hx
        exact h (List.append_eq_nil.mp (List.append_eq_nil.mp hx).1).1
    · split
      · exact ih _ _ (sentLoop_good mc _ chunks cur h)
      · exact ih _ p (Or.inl (by simp))

theorem paraLoop_trigger (mc : Nat) :
    ∀ (ps : List (List Char)),
      (∃ p ∈ ps, p ≠ [] ∧ (mc < p.length → ∃ s ∈ splitOnSep dotSp p, s ≠ [])) →
    ∀ (chunks : List (List Char)) (cur : List Char),
      (paraLoop mc ps chunks cur).1 ≠ [] ∨ (paraLoop mc ps chunks cur).2 ≠ [] := by
  intro ps
  induction ps with
  | nil => rintro ⟨p, hp, _⟩; simp at hp
  | cons p rest ih =>
    rintro ⟨p0, hp0, hp0ne, hp0s⟩ chunks cur
    rw [paraLoop]
    rcases List.mem_cons.mp hp0 with rfl | hmem
    · split
      · refine paraLoop_good mc rest chunks _ (Or.inr ?_)
        intro hx
        exact hp0ne (List.append_eq_nil.mp hx).2
      · split
        · rename_i hfit hcur
          have hlen : mc < p0.length := by
            subst hcur
            simp only [List.nil_append, not_le] at hfit
            exact hfit
          exact paraLoop_good mc rest _ _ (sentLoop_trigger mc _ (hp0s hlen) chunks cur)
        · exact paraLoop_good mc rest _ p0 (Or.inl (by simp))
    · split
      · exact ih ⟨p0, hmem, hp0ne, hp0s⟩ chunks _
      · split
        · exact ih ⟨p0, hmem, hp0ne, hp0s⟩ _ _
        · exact ih ⟨p0, hmem, hp0ne, hp0s⟩ _ p

-- ### Reconstruction invariant of the chunking loops

theorem snoc_eq_snoc {α : Type} {xs ys : List α} {x y : α}
    (h : xs ++ [x] = ys ++ [y]) : xs = ys ∧ x = y := by
  have h2 := List.append_inj' h rfl
  exact ⟨h2.1, by simpa using h2.2⟩

theorem recon_inv {cs : List (List Char)} {t : List Char} (h : Recon cs t) :
    (cs = [t]) ∨
      (∃ cs' t' s u, cs = cs' ++ [u] ∧ t = t' ++ s ++ u ∧ Recon cs' t' ∧
        (s = nl2 ∨ s = dotSp)) := by
  cases h with
  | single c => exact Or.inl rfl
  | @snoc cs' t' s u h' hs => exact Or.inr ⟨cs', t', s, u, rfl, rfl, h', hs⟩

theorem Recon.extend {cs : List (List Char)} {a t : List Char}
    (h : Recon (cs ++ [a]) t) (s u : List Char) :
    Recon (cs ++ [a ++ s ++ u]) (t ++ s ++ u) := by
  rcases recon_inv h with hc | ⟨cs', t', s', u', hc, rfl, h', hs'⟩
  · obtain ⟨rfl, rfl⟩ : cs = [] ∧ a = t := by
      cases cs with
      | nil =>
        simp only [List.nil_append, List.cons.injEq, and_true] at hc
        exact ⟨rfl, hc⟩
      | cons x xs => simp at hc
    simpa using Recon.single (a ++ s ++ u)
  · obtain ⟨h1, h2⟩ := snoc_eq_snoc hc
    rw [h1, h2]
    have := @Recon.snoc cs' t' s' (u' ++ s ++ u) h' hs'
    simpa [List.append_assoc] using this

theorem sentLoop_recon (mc : Nat) :
    ∀ (ss : List (List Char)), (∀ s ∈ ss, s ≠ []) →
    ∀ (chunks : List (List Char)) (cur t : List Char), InvR chunks cur t →
      InvR (sentLoop mc ss chunks cur).1 (sentLoop mc ss chunks cur).2
        (t ++ sepJoin dotSp ss) := by
  intro ss
  induction ss with
  | nil =>
    intro _ chunks cur t h
    simpa [sentLoop, sepJoin] using h
  | cons s rest ih =>
    intro hss chunks cur t hinv
    have hsne : s ≠ [] := hss s (by simp)
    have hrest : ∀ x ∈ rest, x ≠ [] := fun x hx => hss x (by simp [hx])
    rw [sentLoop]
    split
    · rename_i hfit
      rcases hinv with ⟨hcur, hchne, hrec⟩ | ⟨hcur, hrec⟩
      · subst hcur
        have hstep : InvR chunks (([] ++ (if ([] : List Char) = [] then [] else dotSp)) ++ s)
            (t ++ dotSp ++ s) := by
          simp only [if_pos rfl, List.append_nil, List.nil_append]
          exact Or.inr ⟨hsne, Recon.snoc dotSp s hrec (Or.inr rfl)⟩
        have := ih hrest chunks _ _ hstep
        simpa [sepJoin, List.append_assoc] using this
      · have hstep : InvR chunks ((cur ++ (if cur = [] then [] else dotSp)) ++ s)
            (t ++ dotSp ++ s) := by
          rw [if_neg hcur]
          refine Or.inr ⟨?_, Recon.extend hrec dotSp s⟩
          intro hx
          exact hcur (List.append_eq_nil.mp (List.append_eq_nil.mp hx).1).1
        have := ih hrest chunks _ _ hstep
        simpa [sepJoin, List.append_assoc] using this
    · split
      · rename_i hfit hcur
        rcases hinv with ⟨_, hchne, hrec⟩ | ⟨hcur2, _⟩
        · have hstep : InvR (chunks ++ [s]) [] (t ++ dotSp ++ s) :=
            Or.inl ⟨rfl, by simp, Recon.snoc dotSp s hrec (Or.inr rfl)⟩
          have := ih hrest _ _ _ hstep
          simpa [sepJoin, List.append_assoc] using this
        · exact absurd hcur hcur2
      · rename_i hfit hcur
        rcases hinv with ⟨hcur2, _, _⟩ | ⟨_, hrec⟩
        · exact absurd hcur2 hcur
        · have hstep : InvR (chunks ++ [cur]) s (t ++ dotSp ++ s) :=
            Or.inr ⟨hsne, Recon.snoc dotSp s hrec (Or.inr rfl)⟩
          have := ih hrest _ _ _ hstep
          simpa [sepJoin, List.append_assoc] using this

theorem sentFirst_recon (mc : Nat) (ss : List (List Char))
    (hne : ∀ s ∈ ss, s ≠ []) (hssne : ss ≠ [])
    (chunks : List (List Char)) (tpre : List Char)
    (hext : ∀ u, Recon (chunks ++ [u]) (tpre ++ u)) :
    InvR (sentLoop mc ss chunks []).1 (sentLoop mc ss chunks []).2
      (tpre ++ joinParts dotSp ss) := by
  obtain ⟨s1, srest, rfl⟩ : ∃ s1 srest, ss = s1 :: srest := by
    cases ss with
    | nil => exact absurd rfl hssne
    | cons a b => exact ⟨a, b, rfl⟩
  have h1 : s1 ≠ [] := hne s1 (by simp)
  have hrest : ∀ x ∈ srest, x ≠ [] := fun x hx => hne x (by simp [hx])
  rw [sentLoop]
  split
  · rename_i hfit
    have hstep : InvR chunks (([] ++ (if ([] : List Char) = [] then [] else dotSp)) ++ s1)
        (tpre ++ s1) := by
      simp only [if_pos rfl, List.append_nil, List.nil_append]
      exact Or.inr ⟨h1, hext s1⟩
    have := sentLoop_recon mc srest hrest chunks _ _ hstep
    simpa [joinParts, List.append_assoc] using this
  · split
    · have hstep : InvR (chunks ++ [s1]) [] (tpre ++ s1) :=
        Or.inl ⟨rfl, by simp, hext s1⟩
      have := sentLoop_recon mc srest hrest _ _ _ hstep
      simpa [joinParts, List.append_assoc] using this
    · rename_i hfit hcur
      exact absurd rfl hcur

theorem paraLoop_recon (mc : Nat) :
    ∀ (ps : List (List Char)),
      (∀ p ∈ ps, p ≠ [] ∧ (mc < p.length → ∀ s ∈ splitOnSep dotSp p, s ≠ [])) →
    ∀ (chunks : List (List Char)) (cur t : List Char), InvR chunks cur t →
      InvR (paraLoop mc ps chunks cur).1 (paraLoop mc ps chunks cur).2
        (t ++ sepJoin nl2 ps) := by
  intro ps
  induction ps with
  | nil =>
    intro _ chunks cur t h
    simpa [paraLoop, sepJoin] using h
  | cons p rest ih =>
    intro hps chunks cur t hinv
    have hpne : p ≠ [] := (hps p (by simp)).1
    have hpss : mc < p.length → ∀ s ∈ splitOnSep dotSp p, s ≠ [] := (hps p (by simp)).2
    have hrest : ∀ x ∈ rest, x ≠ [] ∧ (mc < x.length → ∀ s ∈ splitOnSep dotSp x, s ≠ []) :=
      fun x hx => hps x (by simp [hx])
    rw [paraLoop]
    split
    · rename_i hfit
      rcases hinv with ⟨hcur, hchne, hrec⟩ | ⟨hcur, hrec⟩
      · subst hcur
        have hstep : InvR chunks (([] ++ (if ([] : List Char) = [] then [] else nl2)) ++ p)
            (t ++ nl2 ++ p) := by
          simp only [if_pos rfl, List.append_nil, List.nil_append]
          exact Or.inr ⟨hpne, Recon.snoc nl2 p hrec (Or.inl rfl)⟩
        have := ih hrest chunks _ _ hstep
        simpa [sepJoin, List.append_assoc] using this
      · have hstep : InvR chunks ((cur ++ (if cur = [] then [] else nl2)) ++ p)
            (t ++ nl2 ++ p) := by
          rw [if_neg hcur]
          refine Or.inr ⟨?_, Recon.extend hrec nl2 p⟩
          intro hx
          exact hcur (List.append_eq_nil.mp (List.append_eq_nil.mp hx).1).1
        have := ih hrest chunks _ _ hstep
        simpa [sepJoin, List.append_assoc] using this
    · split
      · rename_i hfit hcur
        rcases hinv with ⟨_, hchne, hrec⟩ | ⟨hcur2, _⟩
        · subst hcur
          have hlen : mc < p.length := by
            simp only [List.nil_append, not_le] at hfit
            exact hfit
          have hsents := hpss hlen
          have hext : ∀ u, Recon (chunks ++ [u]) ((t ++ nl2) ++ u) := by
            intro u
            exact Recon.snoc nl2 u hrec (Or.inl rfl)
          have hfirst := sentFirst_recon mc (splitOnSep dotSp p) hsents
            (splitOnSep_ne_nil dotSp p) chunks (t ++ nl2) hext
          rw [joinParts_splitOnSep dotSp (by decide) p] at hfirst
          have := ih hrest _ _ _ hfirst
          simpa [sepJoin, List.append_assoc] using this
        · exact absurd hcur hcur2
      · rename_i hfit hcur
        rcases hinv with ⟨hcur2, _, _⟩ | ⟨_, hrec⟩
        · exact absurd hcur2 hcur
        · have hstep : InvR (chunks ++ [cur]) p (t ++ nl2 ++ p) :=
            Or.inr ⟨hpne, Recon.snoc nl2 p hrec (Or.inl rfl)⟩
          have := ih hrest _ _ _ hstep
          simpa [sepJoin, List.append_assoc] using this

theorem chunkText_recon (text : List Char) (maxTokens : Nat)
    (h1 : ∀ p ∈ splitOnSep nl2 text, p ≠ [])
    (h2 : ∀ p ∈ splitOnSep nl2 text, maxTokens * 4 < p.length →
      ∀ s ∈ splitOnSep dotSp p, s ≠ []) :
    Recon (chunkText text maxTokens) text := by
  rw [chunkText]
  simp only
  split
  · exact Recon.single text
  · obtain ⟨p1, prest, hsplit⟩ : ∃ p1 prest, splitOnSep nl2 text = p1 :: prest := by
      cases hx : splitOnSep nl2 text with
      | nil => exact absurd hx (splitOnSep_ne_nil nl2 text)
      | cons a b => exact ⟨a, b, rfl⟩
    have htext : text = p1 ++ sepJoin nl2 prest := by
      have := joinParts_splitOnSep nl2 (by decide) text
      rw [hsplit, joinParts] at this
      exact this.symm
    have hp1 : p1 ≠ [] := h1 p1 (by rw [hsplit]; simp)
    have hps : ∀ p ∈ prest, p ≠ [] ∧
        (maxTokens * 4 < p.length → ∀ s ∈ splitOnSep dotSp p, s ≠ []) := by
      intro x hx
      have hmem : x ∈ splitOnSep nl2 text := by rw [hsplit]; simp [hx]
      exact ⟨h1 x hmem, h2 x hmem⟩
    have hmain : InvR (paraLoop (maxTokens * 4) (splitOnSep nl2 text) [] []).1
        (paraLoop (maxTokens * 4) (splitOnSep nl2 text) [] []).2 text := by
      rw [hsplit, paraLoop]
      split
      · rename_i hfit
        have hstep : InvR [] (([] ++ (if ([] : List Char) = [] then [] else nl2)) ++ p1) p1 := by
          simp only [if_pos rfl, List.append_nil, List.nil_append]
          exact Or.inr ⟨hp1, Recon.single p1⟩
        have := paraLoop_recon (maxTokens * 4) prest hps [] _ _ hstep
        rw [htext]
        simpa using this
      · split
        · rename_i hfit hcur
          have hlen : maxTokens * 4 < p1.length := by
            simp only [List.nil_append, not_le] at hfit
            exact hfit
          have hsents := h2 p1 (by rw [hsplit]; simp) hlen
          have hext : ∀ u, Recon (([] : List (List Char)) ++ [u]) (([] : List Char) ++ u) := by
            intro u
            simpa using Recon.single u
          have hfirst := sentFirst_recon (maxTokens * 4) (splitOnSep dotSp p1) hsents
            (splitOnSep_ne_nil dotSp p1) [] [] hext
          rw [joinParts_splitOnSep dotSp (by decide) p1] at hfirst
          simp only [List.nil_append] at hfirst
          have := paraLoop_recon (maxTokens * 4) prest hps _ _ _ hfirst
          rw [htext]
          simpa using this
        · rename_i hfit hcur
          exact absurd rfl hcur
    rcases hmain with ⟨hcur, hchne, hrec⟩ | ⟨hcur, hrec⟩
    · rw [hcur]
      simpa using hrec
    · rw [if_neg hcur]
      exact hrec

-- ### Claim theorems: chunker

theorem recon_nil_absurd {t : List Char} (h : Recon [] t) : False := by
  rcases recon_inv h with hc | ⟨cs', t', s', u', hc, _, _, _⟩
  · simp at hc
  · obtain ⟨_, h2⟩ := List.append_eq_nil.mp hc.symm
    simp at h2

/-- Claim C1 (counterexample): as stated, the chunk size bound
`length(chunk) ≤ maxTokens × 4` with forced-overflow sentences as the only
exception fails: for the text `"ab\n\ncd"` with budget 1 (maxChars = 4) the
single produced chunk is the whole text of length 6, which is not a sentence
of any paragraph. -/
theorem chunk_size_bound_counterexample :
    ¬ (∀ c ∈ chunkText tTwoParas 1, c.length ≤ 1 * 4 ∨
        (∃ p ∈ splitOnSep nl2 tTwoParas, c ∈ splitOnSep dotSp p ∧ 1 * 4 < c.length)) := by
  decide

/-- Claim C1 (amended): every chunk produced by `chunkText` has length at most
`maxTokens * 4 + 2` (the two-character separator is appended after a length
check that ignores it), or is a whole paragraph of the input or a whole
sentence of one of its paragraphs whose own length exceeds `maxTokens * 4`. -/
theorem chunk_size_bound_amended (text : List Char) (maxTokens : Nat) :
    ∀ c ∈ chunkText text maxTokens,
      c.length ≤ maxTokens * 4 + 2 ∨ (WholeUnit text c ∧ maxTokens * 4 < c.length) :=
  fun c hc => chunkText_sizes text maxTokens c hc

/-- Claim C1 (witness): instance of the amended bound at the concrete text
`"abcdef"` with budget 1. -/
theorem chunk_size_bound_witness :
    tOneWord ∈ chunkText tOneWord 1 ∧
      (tOneWord.length ≤ 1 * 4 + 2 ∨ (WholeUnit tOneWord tOneWord ∧ 1 * 4 < tOneWord.length)) :=
  ⟨by decide, chunk_size_bound_amended tOneWord 1 tOneWord (by decide)⟩

/-- Claim C2 (counterexample): as stated, separator-reinserting reconstruction
fails even without forced sentence-level overflow: for `"\n\nabcd"` with
budget 1 the chunker returns the single chunk `"abcd"` and the leading
paragraph separator is lost. -/
theorem chunk_coverage_counterexample :
    ¬ HasForcedOverflow tLeadingSep 1 ∧ chunkText tLeadingSep 1 = [cstr "abcd"] ∧
      ¬ Recon (chunkText tLeadingSep 1) tLeadingSep := by
  refine ⟨by unfold HasForcedOverflow; decide, by decide, ?_⟩
  rw [(by decide : chunkText tLeadingSep 1 = [cstr "abcd"])]
  intro h
  rcases recon_inv h with hc | ⟨cs', t', s', u', hc, ht, h', hs'⟩
  · exact absurd hc (by decide)
  · cases cs' with
    | nil => exact recon_nil_absurd h'
    | cons x xs =>
      have := congrArg List.length hc
      simp [List.length_append] at this

/-- Claim C2 (amended): provided every paragraph of the text is non-empty and
every sentence of each over-budget paragraph is non-empty, concatenating the
chunks in order with one of the two splitting separators reinserted at each
boundary reconstructs the input exactly — including in the presence of forced
sentence-level overflow.  (When empty paragraphs or sentences meet an empty
accumulator their separators are dropped, which is what the counterexample
exploits.) -/
theorem chunk_coverage_amended (text : List Char) (maxTokens : Nat)
    (h1 : ∀ p ∈ splitOnSep nl2 text, p ≠ [])
    (h2 : ∀ p ∈ splitOnSep nl2 text, maxTokens * 4 < p.length →
      ∀ s ∈ splitOnSep dotSp p, s ≠ []) :
    Recon (chunkText text maxTokens) text :=
  chunkText_recon text maxTokens h1 h2

/-- Claim C2 (witness): reconstruction instance at the concrete text
`"ab. cd\n\nefghij"` with budget 1, where both paragraphs exceed the budget
and sentence splitting with forced overflow occurs. -/
theorem chunk_coverage_witness :
    (∀ p ∈ splitOnSep nl2 tTwoSent, p ≠ []) ∧ Recon (chunkText tTwoSent 1) tTwoSent :=
  ⟨by decide, chunk_coverage_amended tTwoSent 1 (by decide) (by decide)⟩

/-- Claim C6 (counterexample): as stated, over-budget paragraphs are claimed to
always undergo sentence-granularity splitting, leaving single over-budget
sentences as the only oversized chunks; but for `"a\n\nbc. de. fg"` with
budget 1 the over-budget multi-sentence paragraph `"bc. de. fg"` is reached
with a non-empty accumulator and emitted whole, and it is not a sentence of
any paragraph. -/
theorem paragraph_overflow_counterexample :
    ¬ (∀ c ∈ chunkText tBigPara 1, 1 * 4 < c.length →
        ∃ p ∈ splitOnSep nl2 tBigPara, c ∈ splitOnSep dotSp p) := by
  decide

/-- Claim C6 (amended): sentence-granularity splitting of an over-budget
paragraph happens only when the accumulator is empty when that paragraph is
reached; consequently an oversized chunk (longer than `maxTokens*4 + 2`) is
always either a whole paragraph of the input, emitted unmodified, or a whole
sentence of one of its paragraphs (forced overflow). -/
theorem paragraph_overflow_amended (text : List Char) (maxTokens : Nat) :
    ∀ c ∈ chunkText text maxTokens, maxTokens * 4 + 2 < c.length →
      c ∈ splitOnSep nl2 text ∨ ∃ p ∈ splitOnSep nl2 text, c ∈ splitOnSep dotSp p := by
  intro c hc hlen
  rcases chunkText_sizes text maxTokens c hc with h | h
  · omega
  · exact h.1

/-- Claim C6 (witness): the oversized chunk `"bc. de. fg"` produced for
`"a\n\nbc. de. fg"` with budget 1 is a whole paragraph of the input. -/
theorem paragraph_overflow_witness :
    (cstr "bc. de. fg") ∈ chunkText tBigPara 1 ∧
      1 * 4 + 2 < (cstr "bc. de. fg").length ∧
      ((cstr "bc. de. fg") ∈ splitOnSep nl2 tBigPara ∨
        ∃ p ∈ splitOnSep nl2 tBigPara, (cstr "bc. de. fg") ∈ splitOnSep dotSp p) :=
  ⟨by decide, by decide, paragraph_overflow_amended tBigPara 1 _ (by decide) (by decide)⟩

/-- Claim C7 (counterexample): as stated, non-empty texts are claimed to always
produce at least one chunk and no chunk is ever empty; but the non-empty text
`"\n\n\n\n\n\n"` (three paragraph separators, four empty paragraphs) with
budget 1 produces the empty chunk list, and the empty text produces the single
empty chunk. -/
theorem chunk_count_floor_counterexample :
    tOnlySeps ≠ [] ∧ chunkText tOnlySeps 1 = [] ∧ chunkText [] 1 = [[]] := by
  decide

/-- Claim C7 (amended): for a non-empty text all of whose paragraphs are
non-empty, with every sentence of each over-budget paragraph also non-empty,
`chunkText` returns at least one chunk and no returned chunk is empty. -/
theorem chunk_count_floor_amended (text : List Char) (maxTokens : Nat)
    (h0 : text ≠ [])
    (h1 : ∀ p ∈ splitOnSep nl2 text, p ≠ [])
    (h2 : ∀ p ∈ splitOnSep nl2 text, maxTokens * 4 < p.length →
      ∀ s ∈ splitOnSep dotSp p, s ≠ []) :
    chunkText text maxTokens ≠ [] ∧ ∀ c ∈ chunkText text maxTokens, c ≠ [] := by
  constructor
  · rw [chunkText]
    simp only
    split
    · simp
    · obtain ⟨p1, prest, hsplit⟩ : ∃ p1 prest, splitOnSep nl2 text = p1 :: prest := by
        cases hx : splitOnSep nl2 text with
        | nil => exact absurd hx (splitOnSep_ne_nil nl2 text)
        | cons a b => exact ⟨a, b, rfl⟩
      have hmem : p1 ∈ splitOnSep nl2 text := by rw [hsplit]; simp
      have htrig := paraLoop_trigger (maxTokens * 4) (splitOnSep nl2 text)
        ⟨p1, hmem, h1 p1 hmem, fun hlen => by
          obtain ⟨s1, srest, hs⟩ : ∃ s1 srest, splitOnSep dotSp p1 = s1 :: srest := by
            cases hx : splitOnSep dotSp p1 with
            | nil => exact absurd hx (splitOnSep_ne_nil dotSp p1)
            | cons a b => exact ⟨a, b, rfl⟩
          exact ⟨s1, by rw [hs]; simp, h2 p1 hmem hlen s1 (by rw [hs]; simp)⟩⟩ [] []
      split
      · rename_i hcur
        rcases htrig with h | h
        · exact h
        · exact absurd hcur h
      · simp
  · intro c hc
    rw [chunkText] at hc
    simp only at hc
    split at hc
    · simp only [List.mem_singleton] at hc
      subst hc
      exact h0
    · have hne := paraLoop_chunks_ne (maxTokens * 4) (splitOnSep nl2 text) [] []
        (by simp)
      split at hc
      · exact hne c hc
      · rename_i hcur
        rcases List.mem_append.mp hc with h | h
        · exact hne c h
        · simp only [List.mem_singleton] at h
          subst h
          exact hcur

/-- Claim C7 (witness): instance of the amended count floor at the concrete
text `"hello"` with budget 1. -/
theorem chunk_count_floor_witness :
    tHello ≠ [] ∧ chunkText tHello 1 ≠ [] ∧ ∀ c ∈ chunkText tHello 1, c ≠ [] :=
  ⟨by decide,
   (chunk_count_floor_amended tHello 1 (by decide) (by decide) (by decide)).1,
   (chunk_count_floor_amended tHello 1 (by decide) (by decide) (by decide)).2⟩

-- ### Lemmas about the orchestrator loop

theorem stepAcc_keyConcepts (i : Nat) (r : ChatResponse) (st : AccState) :
    (stepAcc i r st).keyConcepts = st.keyConcepts ++ (r.content.keyConcepts.getD []) := by
  simp only [stepAcc]
  split <;> rfl

theorem stepAcc_allSections (i : Nat) (r : ChatResponse) (st : AccState) :
    (stepAcc i r st).allSections = st.allSections ++ (r.content.sections.getD []) := by
  simp only [stepAcc]
  split <;> rfl

theorem stepAcc_totalCost (i : Nat) (r : ChatResponse) (st : AccState) :
    (stepAcc i r st).totalCost = st.totalCost + costOf (inTok r) (outTok r) := by
  simp only [stepAcc]
  split <;> rfl

theorem analyzeLoop_ok (resp : Nat → List Char → ChatResponse) :
    ∀ (chunks : List (List Char)) (i : Nat) (st : AccState),
      analyzeLoop (okCall resp) chunks i st = Except.ok (runAll resp chunks i st) := by
  intro chunks
  induction chunks with
  | nil => intro i st; rfl
  | cons c rest ih =>
    intro i st
    rw [analyzeLoop, runAll]
    exact ih (i + 1) (stepAcc i (resp i c) st)

theorem runAll_keyConcepts (resp : Nat → List Char → ChatResponse) :
    ∀ (chunks : List (List Char)) (i : Nat) (st : AccState),
      (runAll resp chunks i st).keyConcepts = st.keyConcepts ++ collectKC resp chunks i := by
  intro chunks
  induction chunks with
  | nil => intro i st; simp [runAll, collectKC]
  | cons c rest ih =>
    intro i st
    rw [runAll, collectKC, ih, stepAcc_keyConcepts]
    simp [List.append_assoc]

theorem runAll_allSections (resp : Nat → List Char → ChatResponse) :
    ∀ (chunks : List (List Char)) (i : Nat) (st : AccState),
      (runAll resp chunks i st).allSections = st.allSections ++ collectSecs resp chunks i := by
  intro chunks
  induction chunks with
  | nil => intro i st; simp [runAll, collectSecs]
  | cons c rest ih =>
    intro i st
    rw [runAll, collectSecs, ih, stepAcc_allSections]
    simp [List.append_assoc]

theorem runAll_totalCost (resp : Nat → List Char → ChatResponse) :
    ∀ (chunks : List (List Char)) (i : Nat) (st : AccState),
      (runAll resp chunks i st).totalCost = st.totalCost + costSum resp chunks i := by
  intro chunks
  induction chunks with
  | nil => intro i st; simp [runAll, costSum]
  | cons c rest ih =>
    intro i st
    rw [runAll, costSum, ih, stepAcc_totalCost]
    ring

theorem analyzeLoop_error (call : Nat → List Char → Except (List Char) ChatResponse) :
    ∀ (chunks : List (List Char)) (start : Nat) (st : AccState) (k : Nat) (e : List Char),
      k < chunks.length →
      call (start + k) (chunks.getD k []) = Except.error e →
      (∀ j, j < k → ∃ r, call (start + j) (chunks.getD j []) = Except.ok r) →
      analyzeLoop call chunks start st = Except.error e := by
  intro chunks
  induction chunks with
  | nil => intro start st k e hk _ _; simp at hk
  | cons c rest ih =>
    intro start st k e hk herr hok
    cases k with
    | zero =>
      simp only [Nat.add_zero, List.getD_cons_zero] at herr
      rw [analyzeLoop, herr]
    | succ m =>
      obtain ⟨r, hr⟩ := hok 0 (Nat.succ_pos m)
      simp only [Nat.add_zero, List.getD_cons_zero] at hr
      rw [analyzeLoop, hr]
      refine ih (start + 1) (stepAcc start r st) m e ?_ ?_ ?_
      · simp only [List.length_cons] at hk
        omega
      · rw [show start + 1 + m = start + (m + 1) from by omega]
        simpa [List.getD_cons_succ] using herr
      · intro j hj
        obtain ⟨r2, hr2⟩ := hok (j + 1) (by omega)
        refine ⟨r2, ?_⟩
        rw [show start + 1 + j = start + (j + 1) from by omega]
        simpa [List.getD_cons_succ] using hr2

theorem analyze_ok_eq (content title : List Char) (authors : Option (List Char))
    (resp : Nat → List Char → ChatResponse)
    (tc : List Char → List (List Char) → Except (List Char) (Option (List Char))) :
    analyzePaperWithGPT content title authors (okCall resp) tc =
      (if (runAll resp (chunkText content 15000) 0 initAcc).allSections = [] then
        Except.ok (finishOut (runAll resp (chunkText content 15000) 0 initAcc) (baseOf title))
      else
        match tc (runAll resp (chunkText content 15000) 0 initAcc).overview
            ((dedup (runAll resp (chunkText content 15000) 0 initAcc).keyConcepts).take 5) with
        | Except.error e => Except.error (failWrap e)
        | Except.ok tOpt =>
          Except.ok (finishOut (runAll resp (chunkText content 15000) 0 initAcc)
            (acceptTitle tOpt (baseOf title)))) := by
  rw [analyzePaperWithGPT]
  simp only
  rw [analyzeLoop_ok]

theorem dedup_aux_nodup :
    ∀ (l acc : List (List Char)), acc.Nodup →
      (List.foldl (fun acc x => if x ∈ acc then acc else acc ++ [x]) acc l).Nodup := by
  intro l
  induction l with
  | nil => intro acc h; simpa using h
  | cons x xs ih =>
    intro acc h
    simp only [List.foldl_cons]
    by_cases hx : x ∈ acc
    · rw [if_pos hx]
      exact ih acc h
    · rw [if_neg hx]
      refine ih _ ?_
      rw [List.nodup_append]
      refine ⟨h, List.nodup_singleton x, ?_⟩
      intro b hb hb2
      simp only [List.mem_singleton] at hb2
      subst hb2
      exact hx hb

theorem dedup_nodup (l : List (List Char)) : (dedup l).Nodup :=
  dedup_aux_nodup l [] List.nodup_nil

-- ### Claim theorems: orchestrator

/-- Claim C3: if the model call for some chunk `i` fails while all earlier
chunk calls succeed, then `analyzePaperWithGPT` fails with the wrapped error
carrying the underlying cause; no retry happens (each index is consulted once
in the sequential loop) and no partial result is produced — the accumulation
from chunks `0..i-1` is discarded. -/
theorem analysis_abort_on_error (content title : List Char) (authors : Option (List Char))
    (call : Nat → List Char → Except (List Char) ChatResponse)
    (titleCall : List Char → List (List Char) → Except (List Char) (Option (List Char)))
    (i : Nat) (e : List Char)
    (hi : i < (chunkText content 15000).length)
    (he : call i ((chunkText content 15000).getD i []) = Except.error e)
    (hok : ∀ j, j < i → ∃ r, call j ((chunkText content 15000).getD j []) = Except.ok r) :
    analyzePaperWithGPT content title authors call titleCall =
      Except.error (failWrap e) := by
  rw [analyzePaperWithGPT]
  simp only
  rw [analyzeLoop_error call (chunkText content 15000) 0 initAcc i e hi
    (by simpa using he) (by simpa using hok)]

/-- Claim C3 (witness): a failing call on chunk 0 of a one-chunk paper makes
the whole analysis fail with `Failed to analyze paper: boom`. -/
theorem analysis_abort_on_error_witness :
    0 < (chunkText contentW 15000).length ∧
      analyzePaperWithGPT contentW (cstr "T") none failCall tcW =
        Except.error (failWrap boomMsg) :=
  ⟨by decide,
   analysis_abort_on_error contentW (cstr "T") none failCall tcW 0 boomMsg (by decide)
     rfl (fun j hj => absurd hj (Nat.not_lt_zero j))⟩

/-- Claim C4: with a never-failing collaborator, the `keyConcepts` field of
the merged result equals the first-seen-order deduplication of the
concatenated per-chunk `keyConcepts` lists truncated to its first 12
elements; that list has no duplicates and length at most 12. -/
theorem key_concepts_merged (content title : List Char) (authors : Option (List Char))
    (resp : Nat → List Char → ChatResponse)
    (titleCall : List Char → List (List Char) → Except (List Char) (Option (List Char)))
    (tOpt : Option (List Char))
    (htc : ∀ ov k, titleCall ov k = Except.ok tOpt) :
    (analyzePaperWithGPT content title authors (okCall resp) titleCall).map
        AnalysisOutput.keyConcepts =
      Except.ok ((dedup (collectKC resp (chunkText content 15000) 0)).take 12) ∧
    ((dedup (collectKC resp (chunkText content 15000) 0)).take 12).Nodup ∧
    ((dedup (collectKC resp (chunkText content 15000) 0)).take 12).length ≤ 12 := by
  refine ⟨?_, ?_, ?_⟩
  · rw [analyze_ok_eq]
    have hkc : (runAll resp (chunkText content 15000) 0 initAcc).keyConcepts =
        collectKC resp (chunkText content 15000) 0 := by
      rw [runAll_keyConcepts]
      simp [initAcc]
    split
    · simp [Except.map, finishOut, hkc]
    · rw [htc]
      simp [Except.map, finishOut, hkc]
  · exact List.Nodup.sublist (List.take_sublist 12 _) (dedup_nodup _)
  · rw [List.length_take]
    exact Nat.min_le_left _ _

/-- Claim C4 (witness): instance with duplicate concepts `[alpha, alpha,
beta]` in the only chunk reply, merged to `[alpha, beta]`. -/
theorem key_concepts_merged_witness :
    (analyzePaperWithGPT contentW (cstr "T") none (okCall respW) tcW).map
        AnalysisOutput.keyConcepts =
      Except.ok ((dedup (collectKC respW (chunkText contentW 15000) 0)).take 12) ∧
    ((dedup (collectKC respW (chunkText contentW 15000) 0)).take 12).Nodup ∧
    ((dedup (collectKC respW (chunkText contentW 15000) 0)).take 12).length ≤ 12 :=
  key_concepts_merged contentW (cstr "T") none respW tcW (some titleW) (fun _ _ => rfl)

/-- Claim C5: with a never-failing collaborator, the `estimatedCost` field of
the merged result equals the sum over all chunk calls of
`inputTokens/1_000_000 * 2.00 + outputTokens/1_000_000 * 8.00`, rounded to 4
decimal places. -/
theorem cost_accounting (content title : List Char) (authors : Option (List Char))
    (resp : Nat → List Char → ChatResponse)
    (titleCall : List Char → List (List Char) → Except (List Char) (Option (List Char)))
    (tOpt : Option (List Char))
    (htc : ∀ ov k, titleCall ov k = Except.ok tOpt) :
    (analyzePaperWithGPT content title authors (okCall resp) titleCall).map
        AnalysisOutput.estimatedCost =
      Except.ok (roundTo4 (costSum resp (chunkText content 15000) 0)) := by
  rw [analyze_ok_eq]
  have hc : (runAll resp (chunkText content 15000) 0 initAcc).totalCost =
      costSum resp (chunkText content 15000) 0 := by
    rw [runAll_totalCost]
    simp [initAcc]
  split
  · simp [Except.map, finishOut, hc]
  · rw [htc]
    simp [Except.map, finishOut, hc]

/-- Claim C5 (witness): cost instance for a single chunk call with 100 prompt
and 200 completion tokens. -/
theorem cost_accounting_witness :
    (analyzePaperWithGPT contentW (cstr "T") none (okCall respW) tcW).map
        AnalysisOutput.estimatedCost =
      Except.ok (roundTo4 (costSum respW (chunkText contentW 15000) 0)) :=
  cost_accounting contentW (cstr "T") none respW tcW (some titleW) (fun _ _ => rfl)

/-- Claim C9 (counterexample): as stated, the extra title-generation call
would be issued only when chunk 0 did not provide a usable `generatedTitle`;
but even though chunk 0's reply here carries the usable 32-character title
`gUsable`, the merged result's `generatedTitle` is whatever the extra call
answers — two different title oracles yield two different results, so the
extra call is issued and used regardless of chunk 0's title, which the code
only logs. -/
theorem title_generation_counterexample :
    (respT 0 contentW).content.generatedTitle = some gUsable ∧
    10 < gUsable.length ∧ gUsable.length < 150 ∧
    (analyzePaperWithGPT contentW (cstr "T") none (okCall respT) tcA).map
        AnalysisOutput.generatedTitle =
      Except.ok (cstr "Replacement Title Number One") ∧
    (analyzePaperWithGPT contentW (cstr "T") none (okCall respT) tcB).map
        AnalysisOutput.generatedTitle =
      Except.ok (cstr "A Different Replacement Title") := by
  exact ⟨rfl, by decide, by decide, rfl, rfl⟩

/-- Claim C9 (amended): the extra title-generation call is issued exactly when
the accumulated sections list is non-empty, regardless of chunk 0's
`generatedTitle` (which the orchestrator only logs): with no sections the
result does not depend on the title oracle and keeps the original title (or
the placeholder for an empty one); with sections, the oracle's reply replaces
the base title only when its trimmed length is strictly between 10 and 150
characters. -/
theorem title_generation_amended (content title : List Char) (authors : Option (List Char))
    (resp : Nat → List Char → ChatResponse) :
    ((collectSecs resp (chunkText content 15000) 0 = []) →
      (∀ tc1 tc2, analyzePaperWithGPT content title authors (okCall resp) tc1 =
          analyzePaperWithGPT content title authors (okCall resp) tc2) ∧
      (∀ tc, (analyzePaperWithGPT content title authors (okCall resp) tc).map
          AnalysisOutput.generatedTitle = Except.ok (baseOf title))) ∧
    ((collectSecs resp (chunkText content 15000) 0 ≠ []) →
      ∀ (tOpt : Option (List Char)) tc, (∀ ov k, tc ov k = Except.ok tOpt) →
        (analyzePaperWithGPT content title authors (okCall resp) tc).map
          AnalysisOutput.generatedTitle = Except.ok (acceptTitle tOpt (baseOf title))) := by
  constructor
  · intro hsec
    have hempty : (runAll resp (chunkText content 15000) 0 initAcc).allSections = [] := by
      rw [runAll_allSections]
      simp [initAcc, hsec]
    constructor
    · intro tc1 tc2
      rw [analyze_ok_eq, analyze_ok_eq, if_pos hempty, if_pos hempty]
    · intro tc
      rw [analyze_ok_eq, if_pos hempty]
      simp [Except.map, finishOut]
  · intro hsec tOpt tc htc
    have hne : (runAll resp (chunkText content 15000) 0 initAcc).allSections ≠ [] := by
      rw [runAll_allSections]
      simpa [initAcc] using hsec
    rw [analyze_ok_eq, if_neg hne, htc]
    simp [Except.map, finishOut]

/-- Claim C9 (witness): with a section-free run the result is independent of
the title oracle and keeps the original title. -/
theorem title_generation_witness :
    collectSecs respN (chunkText contentW 15000) 0 = [] ∧
    analyzePaperWithGPT contentW (cstr "T") none (okCall respN) tcA =
      analyzePaperWithGPT contentW (cstr "T") none (okCall respN) tcB ∧
    (analyzePaperWithGPT contentW (cstr "T") none (okCall respN) tcA).map
        AnalysisOutput.generatedTitle = Except.ok (baseOf (cstr "T")) := by
  have h := (title_generation_amended contentW (cstr "T") none respN).1 (by decide)
  exact ⟨by decide, h.1 tcA tcB, h.2 tcA⟩

-- ### Claim theorem: document extractor

/-- Claim C8: for a first page whose topmost fragment is
`"Attention Is All You Need"` and whose second fragment is
`"Ashish Vaswani, Noam Shazeer"`, both title/author inference revisions of
`parsePDF` (src/unnamed/part_005 and src/unnamed/part_006) infer exactly that
title and that author string. -/
theorem pdf_title_author_scenario :
    title5 attnPage = cstr "Attention Is All You Need" ∧
    authors5 attnPage = cstr "Ashish Vaswani, Noam Shazeer" ∧
    title6 attnPage = cstr "Attention Is All You Need" ∧
    authors6 attnPage = cstr "Ashish Vaswani, Noam Shazeer" := by
  decide

-- ### Lemmas about the arXiv pattern matcher

theorem startsWith_append (pat rest : List Char) :
    startsWith pat (pat ++ rest) = true := by
  induction pat with
  | nil => rfl
  | cons a as ih => simpa [startsWith] using ih

theorem startsWith_iff {pat l : List Char} :
    startsWith pat l = true ↔ ∃ rest, l = pat ++ rest := by
  constructor
  · intro h
    exact ⟨l.drop pat.length, startsWith_decomp h⟩
  · rintro ⟨rest, rfl⟩
    exact startsWith_append pat rest

theorem digitsAt_iff :
    ∀ (n : Nat) (l : List Char), digitsAt n l = true ↔
      ∃ a rest, l = a ++ rest ∧ a.length = n ∧ ∀ c ∈ a, isAsciiDigit c = true := by
  intro n
  induction n with
  | zero =>
    intro l
    constructor
    · intro _
      exact ⟨[], l, rfl, rfl, by simp⟩
    · intro _
      rfl
  | succ m ih =>
    intro l
    cases l with
    | nil =>
      constructor
      · intro h
        simp [digitsAt] at h
      · rintro ⟨a, rest, heq, hlen, _⟩
        have := congrArg List.length heq
        rw [List.length_nil, List.length_append, hlen] at this
        omega
    | cons c cs =>
      simp only [digitsAt, Bool.and_eq_true]
      constructor
      · rintro ⟨hc, hrest⟩
        obtain ⟨a, rest, rfl, hlen, hdig⟩ := (ih cs).mp hrest
        refine ⟨c :: a, rest, rfl, by simp [hlen], ?_⟩
        intro x hx
        rcases List.mem_cons.mp hx with rfl | hx
        · exact hc
        · exact hdig x hx
      · rintro ⟨a, rest, heq, hlen, hdig⟩
        cases a with
        | nil => simp at hlen
        | cons a0 as =>
          simp only [List.cons_append, List.cons.injEq] at heq
          obtain ⟨rfl, heq2⟩ := heq
          refine ⟨hdig _ (by simp), ?_⟩
          refine (ih cs).mpr ⟨as, rest, heq2, by simpa using hlen, ?_⟩
          intro x hx
          exact hdig x (by simp [hx])

theorem newIdCap_isSome {l : List Char} :
    (newIdCap l).isSome = true ↔
      ∃ a b rest, l = a ++ '.' :: (b ++ rest) ∧ a.length = 4 ∧ b.length = 4 ∧
        (∀ c ∈ a, isAsciiDigit c = true) ∧ (∀ c ∈ b, isAsciiDigit c = true) := by
  constructor
  · intro h
    rw [newIdCap] at h
    split at h
    · rename_i h4
      split at h
      · rename_i rest hdrop
        split at h
        · rename_i h4b
          obtain ⟨a, rest0, heq, hlen, hdig⟩ := (digitsAt_iff 4 l).mp h4
          have hr0 : rest0 = '.' :: rest := by
            have hd : l.drop a.length = rest0 := by
              rw [heq]
              exact List.drop_left a rest0
            rw [hlen, hdrop] at hd
            exact hd.symm
          obtain ⟨b, rest1, rfl, hlenb, hdigb⟩ := (digitsAt_iff 4 rest).mp h4b
          exact ⟨a, b, rest1, by rw [heq, hr0], hlen, hlenb, hdig, hdigb⟩
        · simp at h
      · simp at h
    · simp at h
  · rintro ⟨a, b, rest, rfl, hlen, hlenb, hdig, hdigb⟩
    rw [newIdCap]
    have h4 : digitsAt 4 (a ++ '.' :: (b ++ rest)) = true :=
      (digitsAt_iff 4 _).mpr ⟨a, _, rfl, hlen, hdig⟩
    rw [if_pos h4]
    have hdrop : (a ++ '.' :: (b ++ rest)).drop 4 = '.' :: (b ++ rest) := by
      rw [← hlen]
      exact List.drop_left a _
    rw [hdrop]
    have h4b : digitsAt 4 (b ++ rest) = true :=
      (digitsAt_iff 4 _).mpr ⟨b, rest, rfl, hlenb, hdigb⟩
    simp [h4b]

theorem oldIdCapAfter_isSome :
    ∀ (l acc : List Char),
      (oldIdCapAfter acc l).isSome = true ↔
        ∃ cat ds rest, l = cat ++ '/' :: (ds ++ rest) ∧
          (∀ c ∈ cat, isCatCh c = true) ∧ ds.length = 7 ∧
          (∀ c ∈ ds, isAsciiDigit c = true) := by
  intro l
  induction l with
  | nil =>
    intro acc
    constructor
    · intro h
      simp [oldIdCapAfter] at h
    · rintro ⟨cat, ds, rest, heq, _, _, _⟩
      have := congrArg List.length heq
      simp [List.length_append] at this
      omega
  | cons c cs ih =>
    intro acc
    rw [oldIdCapAfter]
    by_cases hc : c = '/'
    · subst hc
      rw [if_pos rfl]
      constructor
      · intro h
        split at h
        · rename_i h7
          obtain ⟨ds, rest, rfl, hlen, hdig⟩ := (digitsAt_iff 7 cs).mp h7
          exact ⟨[], ds, rest, rfl, by simp, hlen, hdig⟩
        · simp at h
      · rintro ⟨cat, ds, rest, heq, hcats, hlen, hdig⟩
        have hcatnil : cat = [] := by
          cases cat with
          | nil => rfl
          | cons x xs =>
            simp only [List.cons_append, List.cons.injEq] at heq
            have hx := hcats x (by simp)
            rw [← heq.1] at hx
            simp [isCatCh] at hx
        subst hcatnil
        simp only [List.nil_append, List.cons.injEq, true_and] at heq
        have h7 : digitsAt 7 cs = true := by
          rw [heq]
          exact (digitsAt_iff 7 _).mpr ⟨ds, rest, rfl, hlen, hdig⟩
        rw [if_pos h7]
        rfl
    · rw [if_neg hc]
      by_cases hcat : isCatCh c = true
      · rw [if_pos hcat, ih (c :: acc)]
        constructor
        · rintro ⟨cat, ds, rest, rfl, hcats, hlen, hdig⟩
          refine ⟨c :: cat, ds, rest, rfl, ?_, hlen, hdig⟩
          intro x hx
          rcases List.mem_cons.mp hx with rfl | hx
          · exact hcat
          · exact hcats x hx
        · rintro ⟨cat, ds, rest, heq, hcats, hlen, hdig⟩
          cases cat with
          | nil =>
            simp only [List.nil_append, List.cons.injEq] at heq
            exact absurd heq.1 hc
          | cons x xs =>
            simp only [List.cons_append, List.cons.injEq] at heq
            obtain ⟨rfl, heq2⟩ := heq
            exact ⟨xs, ds, rest, heq2, fun y hy => hcats y (by simp [hy]), hlen, hdig⟩
      · rw [if_neg hcat]
        constructor
        · intro h
          simp at h
        · rintro ⟨cat, ds, rest, heq, hcats, _, _⟩
          cases cat with
          | nil =>
            simp only [List.nil_append, List.cons.injEq] at heq
            exact absurd heq.1 hc
          | cons x xs =>
            simp only [List.cons_append, List.cons.injEq] at heq
            have hx := hcats x (by simp)
            rw [← heq.1] at hx
            exact absurd hx hcat

theorem oldIdCap_isSome {l : List Char} :
    (oldIdCap l).isSome = true ↔
      ∃ cat ds rest, l = cat ++ '/' :: (ds ++ rest) ∧ cat ≠ [] ∧
        (∀ c ∈ cat, isCatCh c = true) ∧ ds.length = 7 ∧
        (∀ c ∈ ds, isAsciiDigit c = true) := by
  cases l with
  | nil =>
    rw [oldIdCap]
    constructor
    · intro h
      simp at h
    · rintro ⟨cat, ds, rest, heq, _, _, _, _⟩
      have := congrArg List.length heq
      simp [List.length_append] at this
      omega
  | cons c cs =>
    rw [oldIdCap]
    by_cases hcat : isCatCh c = true
    · rw [if_pos hcat, oldIdCapAfter_isSome cs [c]]
      constructor
      · rintro ⟨cat, ds, rest, rfl, hcats, hlen, hdig⟩
        refine ⟨c :: cat, ds, rest, rfl, by simp, ?_, hlen, hdig⟩
        intro x hx
        rcases List.mem_cons.mp hx with rfl | hx
        · exact hcat
        · exact hcats x hx
      · rintro ⟨cat, ds, rest, heq, hcatne, hcats, hlen, hdig⟩
        cases cat with
        | nil => exact absurd rfl hcatne
        | cons x xs =>
          simp only [List.cons_append, List.cons.injEq] at heq
          obtain ⟨rfl, heq2⟩ := heq
          exact ⟨xs, ds, rest, heq2, fun y hy => hcats y (by simp [hy]), hlen, hdig⟩
    · rw [if_neg hcat]
      constructor
      · intro h
        simp at h
      · rintro ⟨cat, ds, rest, heq, hcatne, hcats, _, _⟩
        cases cat with
        | nil => exact absurd rfl hcatne
        | cons x xs =>
          simp only [List.cons_append, List.cons.injEq] at heq
          have hx := hcats x (by simp)
          rw [← heq.1] at hx
          exact absurd hx hcat

theorem tryAt_isSome {cap : List Char → Option (List Char)} {lit v : List Char} :
    (tryAt cap lit v).isSome = true ↔
      ∃ rest, v = lit ++ rest ∧ (cap rest).isSome = true := by
  rw [tryAt]
  by_cases hsw : startsWith lit v = true
  · rw [if_pos hsw]
    obtain ⟨rest, rfl⟩ := startsWith_iff.mp hsw
    rw [List.drop_left]
    constructor
    · intro h
      exact ⟨rest, rfl, h⟩
    · rintro ⟨rest2, heq, h⟩
      have hr : rest = rest2 := List.append_cancel_left heq
      rw [hr]
      exact h
  · rw [if_neg hsw]
    constructor
    · intro h
      simp at h
    · rintro ⟨rest, rfl, _⟩
      exact absurd (startsWith_append lit rest) hsw

theorem findCap_isSome (cap : List Char → Option (List Char)) (lit : List Char) :
    ∀ l : List Char, (findCap cap lit l).isSome = true ↔
      ∃ u v, l = u ++ v ∧ (tryAt cap lit v).isSome = true := by
  intro l
  induction l with
  | nil =>
    rw [findCap]
    constructor
    · intro h
      exact ⟨[], [], rfl, h⟩
    · rintro ⟨u, v, heq, h⟩
      obtain ⟨rfl, rfl⟩ := List.append_eq_nil.mp heq.symm
      exact h
  | cons c cs ih =>
    rw [findCap]
    cases htry : tryAt cap lit (c :: cs) with
    | some r =>
      constructor
      · intro _
        exact ⟨[], c :: cs, rfl, by rw [htry]; rfl⟩
      · intro _
        rfl
    | none =>
      constructor
      · intro h
        obtain ⟨u, v, rfl, hv⟩ := ih.mp h
        exact ⟨c :: u, v, rfl, hv⟩
      · rintro ⟨u, v, heq, hv⟩
        cases u with
        | nil =>
          simp only [List.nil_append] at heq
          rw [← heq] at hv
          rw [htry] at hv
          simp at hv
        | cons u0 us =>
          simp only [List.cons_append, List.cons.injEq] at heq
          exact ih.mpr ⟨us, v, heq.2, hv⟩

theorem extract_isSome_iff (url : List Char) :
    (extractArxivId url).isSome = true ↔
      ((findCap newIdCap litAbs url).isSome = true ∨
       (findCap newIdCap litPdf url).isSome = true ∨
       (findCap oldIdCap litAbs url).isSome = true ∨
       (findCap oldIdCap litPdf url).isSome = true) := by
  rw [extractArxivId]
  cases h1 : findCap newIdCap litAbs url with
  | some r => simp [h1]
  | none =>
    cases h2 : findCap newIdCap litPdf url with
    | some r => simp [h1, h2]
    | none =>
      cases h3 : findCap oldIdCap litAbs url with
      | some r => simp [h1, h2, h3]
      | none =>
        cases h4 : findCap oldIdCap litPdf url with
        | some r => simp [h1, h2, h3, h4]
        | none => simp [h1, h2, h3, h4]

-- ### Claim theorem: arXiv URL validation

/-- Claim C10: `validateArxivUrl(s)` returns true exactly when `s` contains,
anywhere within it, `arxiv.org/abs/` or `arxiv.org/pdf/` followed by a
new-style `NNNN.NNNN(N)` or old-style `category/NNNNNNN` identifier; the
patterns are not anchored to a scheme or host, so any string embedding such a
substring is accepted. -/
theorem arxiv_url_validation (url : List Char) :
    validateArxivUrl url = true ↔ ContainsArxivRef url := by
  rw [validateArxivUrl, extract_isSome_iff]
  simp only [ContainsArxivRef, NewIdAt, OldIdAt]
  constructor
  · intro h
    rcases h with h | h | h | h
    · obtain ⟨u, v, hsplit, htry⟩ := (findCap_isSome _ _ _).mp h
      obtain ⟨rest, hv, hcap⟩ := tryAt_isSome.mp htry
      exact ⟨u, v, hsplit, Or.inl ⟨rest, hv, Or.inl (newIdCap_isSome.mp hcap)⟩⟩
    · obtain ⟨u, v, hsplit, htry⟩ := (findCap_isSome _ _ _).mp h
      obtain ⟨rest, hv, hcap⟩ := tryAt_isSome.mp htry
      exact ⟨u, v, hsplit, Or.inr ⟨rest, hv, Or.inl (newIdCap_isSome.mp hcap)⟩⟩
    · obtain ⟨u, v, hsplit, htry⟩ := (findCap_isSome _ _ _).mp h
      obtain ⟨rest, hv, hcap⟩ := tryAt_isSome.mp htry
      exact ⟨u, v, hsplit, Or.inl ⟨rest, hv, Or.inr (oldIdCap_isSome.mp hcap)⟩⟩
    · obtain ⟨u, v, hsplit, htry⟩ := (findCap_isSome _ _ _).mp h
      obtain ⟨rest, hv, hcap⟩ := tryAt_isSome.mp htry
      exact ⟨u, v, hsplit, Or.inr ⟨rest, hv, Or.inr (oldIdCap_isSome.mp hcap)⟩⟩
  · rintro ⟨u, v, hsplit, (⟨rest, hv, hid | hid⟩ | ⟨rest, hv, hid | hid⟩)⟩
    · exact Or.inl ((findCap_isSome _ _ _).mpr
        ⟨u, v, hsplit, tryAt_isSome.mpr ⟨rest, hv, newIdCap_isSome.mpr hid⟩⟩)
    · exact Or.inr (Or.inr (Or.inl ((findCap_isSome _ _ _).mpr
        ⟨u, v, hsplit, tryAt_isSome.mpr ⟨rest, hv, oldIdCap_isSome.mpr hid⟩⟩)))
    · exact Or.inr (Or.inl ((findCap_isSome _ _ _).mpr
        ⟨u, v, hsplit, tryAt_isSome.mpr ⟨rest, hv, newIdCap_isSome.mpr hid⟩⟩))
    · exact Or.inr (Or.inr (Or.inr ((findCap_isSome _ _ _).mpr
        ⟨u, v, hsplit, tryAt_isSome.mpr ⟨rest, hv, oldIdCap_isSome.mpr hid⟩⟩)))
